import Mathlib

/-!
# Verification of `outliers_lib/find_outliers.py`

A shallow embedding of the three outlier-filtering functions
(`find_outliers_iqr`, `find_outliers_z_score`, `find_outliers_quantile`)
over exact rationals, together with proofs of the spec's claims.

Modelling conventions:
* A pandas/numpy float is modelled by `FV`: either a finite rational,
  `+inf`, `-inf`, or `nan`, with IEEE-754 arithmetic and comparison rules
  (every comparison involving `nan` is false).
* `np.log(x + 1)` is modelled by `log1p lg x`, where `lg : ℚ → ℚ` is an
  abstract parameter standing for the (transcendental) real function
  `ln(x+1)` on the valid domain `x > -1`; for `x < -1` the result is `nan`
  and for `x = -1` it is `-inf`, exactly as in numpy.
* `np.sqrt` (inside `Series.std`) is likewise an abstract parameter
  `sq : ℚ → ℚ` applied to the (rational) sample variance; theorems that
  need facts about the real square root (`sq 0 = 0`, nonnegativity)
  take them as hypotheses.
* A `pandas.DataFrame` is a column-name list plus a rectangular list of
  rows; boolean-mask filtering is positional, exactly like `data[mask]`.
* `Series.quantile` / `.mean()` / `.std()` skip `nan` entries
  (pandas `skipna=True` default); `quantile` uses linear interpolation at
  position `q * (n - 1)`; `std` uses the `ddof=1` sample estimator.
* Column access `data[feature]` on a missing column raises `KeyError`;
  `Series.quantile(q)` with `q` outside `[0, 1]` raises `ValueError`.
  Errors are modelled with `Except`.
-/

set_option linter.unusedVariables false

/-- An IEEE-754-style scalar: finite rational, infinities, or `nan`. -/
inductive FV where
  | nan : FV
  | ninf : FV
  | pinf : FV
  | fin (q : ℚ) : FV
deriving DecidableEq

/-- Is this value `nan`? -/
def FV.isNan : FV → Bool
  | .nan => true
  | _ => false

/-- IEEE negation. -/
def fneg : FV → FV
  | .nan => .nan
  | .ninf => .pinf
  | .pinf => .ninf
  | .fin q => .fin (-q)

/-- IEEE addition: `nan` propagates, `(+inf) + (-inf) = nan`. -/
def fadd : FV → FV → FV
  | .nan, _ => .nan
  | _, .nan => .nan
  | .pinf, .ninf => .nan
  | .ninf, .pinf => .nan
  | .pinf, _ => .pinf
  | _, .pinf => .pinf
  | .ninf, _ => .ninf
  | _, .ninf => .ninf
  | .fin a, .fin b => .fin (a + b)

/-- IEEE subtraction. -/
def fsub (a b : FV) : FV := fadd a (fneg b)

/-- IEEE multiplication: `nan` propagates, `0 * (±inf) = nan`. -/
def fmul : FV → FV → FV
  | .nan, _ => .nan
  | _, .nan => .nan
  | .pinf, .pinf => .pinf
  | .pinf, .ninf => .ninf
  | .ninf, .pinf => .ninf
  | .ninf, .ninf => .pinf
  | .pinf, .fin b => if 0 < b then .pinf else if b < 0 then .ninf else .nan
  | .fin a, .pinf => if 0 < a then .pinf else if a < 0 then .ninf else .nan
  | .ninf, .fin b => if 0 < b then .ninf else if b < 0 then .pinf else .nan
  | .fin a, .ninf => if 0 < a then .ninf else if a < 0 then .pinf else .nan
  | .fin a, .fin b => .fin (a * b)

/-- Division by a (positive) natural count, as used by `mean` and `std`. -/
def fdivN : FV → ℕ → FV
  | .nan, _ => .nan
  | .ninf, _ => .ninf
  | .pinf, _ => .pinf
  | .fin a, n => .fin (a / n)

/-- IEEE strict comparison `a < b`: any comparison with `nan` is false. -/
def fvltB : FV → FV → Bool
  | .nan, _ => false
  | _, .nan => false
  | .ninf, .ninf => false
  | .ninf, _ => true
  | _, .ninf => false
  | .pinf, _ => false
  | .fin _, .pinf => true
  | .fin a, .fin b => decide (a < b)

/-- Total comparator used for sorting (numpy sorts `nan` last,
`-inf` first). -/
def fvleB : FV → FV → Bool
  | _, .nan => true
  | .nan, _ => false
  | .ninf, _ => true
  | _, .ninf => false
  | _, .pinf => true
  | .pinf, _ => false
  | .fin a, .fin b => decide (a ≤ b)

/-- The sorting comparator as a relation. -/
def fvle (a b : FV) : Prop := fvleB a b = true

instance : DecidableRel fvle := fun a b => by
  unfold fvle; infer_instance

instance : IsTotal FV fvle := by
  constructor
  intro a b
  cases a <;> cases b <;> simp [fvle, fvleB] <;> exact le_total _ _

instance : IsTrans FV fvle := by
  constructor
  intro a b c hab hbc
  cases a <;> cases b <;> cases c <;> simp_all [fvle, fvleB] <;> exact le_trans hab hbc

instance : IsRefl FV fvle := by
  constructor
  intro a
  cases a <;> simp [fvle, fvleB]

/-- Drop the `nan` entries of a series (pandas `skipna=True`). -/
def dropna (xs : List FV) : List FV := xs.filter (fun v => ! v.isNan)

/-- Sort a (nan-free) series ascending, as numpy does before selecting
order statistics. -/
def sortFV (xs : List FV) : List FV := List.insertionSort fvle xs

/-- Sum of a series. -/
def fsum (xs : List FV) : FV := xs.foldr fadd (.fin 0)

/-- Linear interpolation at fractional position `h` into the sorted list
`s`: `s[⌊h⌋] + (h − ⌊h⌋) · (s[⌊h⌋+1] − s[⌊h⌋])`, clamped to the last
element when `⌊h⌋ + 1` is out of range (numpy linear interpolation). -/
def interpFV (s : List FV) (h : ℚ) : FV :=
  if (⌊h⌋).toNat + 1 < s.length then
    fadd (s.getD (⌊h⌋).toNat .nan)
      (fmul (.fin (h - ((⌊h⌋).toNat : ℚ)))
        (fsub (s.getD ((⌊h⌋).toNat + 1) .nan) (s.getD (⌊h⌋).toNat .nan)))
  else s.getD (⌊h⌋).toNat .nan

/-- `Series.quantile(q)` with linear interpolation, skipping `nan`;
`nan` on an all-`nan`/empty series. -/
def quantileFV (xs : List FV) (q : ℚ) : FV :=
  if dropna xs = [] then .nan
  else interpFV (sortFV (dropna xs)) (q * (((dropna xs).length : ℚ) - 1))

/-- `Series.mean()`: arithmetic mean of the non-`nan` entries, `nan` when
there are none. -/
def meanFV (xs : List FV) : FV :=
  if (dropna xs).length = 0 then .nan
  else fdivN (fsum (dropna xs)) (dropna xs).length

/-- The sample variance (`ddof = 1`) underlying `Series.std()`:
`Σ (y − mean)² / (n − 1)` over the non-`nan` entries; `nan` when fewer
than two of them exist. -/
def varFV (xs : List FV) : FV :=
  if (dropna xs).length < 2 then .nan
  else
    fdivN
      (fsum ((dropna xs).map
        (fun y => fmul (fsub y (meanFV xs)) (fsub y (meanFV xs)))))
      ((dropna xs).length - 1)

/-- `Series.std()` = `sqrt` of the sample variance; `sq` abstracts the
real square root on finite nonnegative arguments. -/
def stdFV (sq : ℚ → ℚ) (xs : List FV) : FV :=
  match varFV xs with
  | .fin v => .fin (sq v)
  | .pinf => .pinf
  | _ => .nan

/-- `np.log(x + 1)` on a stored rational value: `nan` for `x < -1`
(log of a negative number), `-inf` for `x = -1` (log of zero), and the
abstract real logarithm `lg x` otherwise. -/
def log1p (lg : ℚ → ℚ) (x : ℚ) : FV :=
  if x < -1 then .nan else if x = -1 then .ninf else .fin (lg x)

/-- A `pandas.DataFrame`: column names plus rows of rational values,
aligned positionally with `cols`. -/
structure DF where
  cols : List String
  rows : List (List ℚ)
deriving DecidableEq

/-- Position of a column name. -/
def DF.colIdx (df : DF) (feature : String) : ℕ := df.cols.indexOf feature

/-- Does the column exist (`feature in data.columns`)? -/
def DF.hasCol (df : DF) (feature : String) : Bool := df.cols.contains feature

/-- `data[feature]`: the column's values, in row order. -/
def DF.colVals (df : DF) (feature : String) : List ℚ :=
  df.rows.map (fun r => r.getD (df.colIdx feature) 0)

/-- `data[mask]`: keep the rows whose positionally-aligned mask value
satisfies `p`. -/
def DF.maskFilter (df : DF) (xs : List FV) (p : FV → Bool) : DF :=
  ⟨df.cols, ((df.rows.zip xs).filter (fun rx => p rx.2)).map Prod.fst⟩

/-- Errors surfaced by the pandas substrate: `KeyError` for a missing
column, `ValueError` for a quantile probability outside `[0, 1]`. -/
inductive PdError where
  | keyError (feature : String) : PdError
  | valueError : PdError
deriving DecidableEq

/-- The series `x` of both IQR and z-score functions:
`np.log(data[feature] + 1)` under `log_scale`, else `data[feature]`. -/
def transformX (lg : ℚ → ℚ) (data : DF) (feature : String)
    (log_scale : Bool) : List FV :=
  if log_scale then (data.colVals feature).map (log1p lg)
  else (data.colVals feature).map FV.fin

/-- The transform of a single row, used to restate the pipeline
row-by-row. -/
def rowT (lg : ℚ → ℚ) (data : DF) (feature : String) (log_scale : Bool)
    (r : List ℚ) : FV :=
  if log_scale then log1p lg (r.getD (data.colIdx feature) 0)
  else .fin (r.getD (data.colIdx feature) 0)

/-- The `(lower_bound, upper_bound)` pair computed by
`find_outliers_iqr`: `Q1 − IQR·left` and `Q3 + IQR·right` of the
(possibly log-transformed) series. -/
def iqrBounds (lg : ℚ → ℚ) (data : DF) (feature : String)
    (left right : ℚ) (log_scale : Bool) : FV × FV :=
  (fsub (quantileFV (transformX lg data feature log_scale) (1/4))
    (fmul (fsub (quantileFV (transformX lg data feature log_scale) (3/4))
      (quantileFV (transformX lg data feature log_scale) (1/4))) (.fin left)),
   fadd (quantileFV (transformX lg data feature log_scale) (3/4))
    (fmul (fsub (quantileFV (transformX lg data feature log_scale) (3/4))
      (quantileFV (transformX lg data feature log_scale) (1/4))) (.fin right)))

/-- `find_outliers_iqr(data, feature, left, right, log_scale)`. -/
def find_outliers_iqr (lg : ℚ → ℚ) (data : DF) (feature : String)
    (left right : ℚ) (log_scale : Bool) : Except PdError (DF × DF) :=
  if data.hasCol feature then
    .ok
      (data.maskFilter (transformX lg data feature log_scale)
        (fun v => fvltB v (iqrBounds lg data feature left right log_scale).1 ||
          fvltB (iqrBounds lg data feature left right log_scale).2 v),
       data.maskFilter (transformX lg data feature log_scale)
        (fun v => fvltB (iqrBounds lg data feature left right log_scale).1 v &&
          fvltB v (iqrBounds lg data feature left right log_scale).2))
  else .error (.keyError feature)

/-- The `(lower_bound, upper_bound)` pair computed by
`find_outliers_z_score`: `mu − left·sigma` and `mu + right·sigma`. -/
def zBounds (lg sq : ℚ → ℚ) (data : DF) (feature : String)
    (left right : ℚ) (log_scale : Bool) : FV × FV :=
  (fsub (meanFV (transformX lg data feature log_scale))
    (fmul (.fin left) (stdFV sq (transformX lg data feature log_scale))),
   fadd (meanFV (transformX lg data feature log_scale))
    (fmul (.fin right) (stdFV sq (transformX lg data feature log_scale))))

/-- `find_outliers_z_score(data, feature, left, right, log_scale)`. -/
def find_outliers_z_score (lg sq : ℚ → ℚ) (data : DF) (feature : String)
    (left right : ℚ) (log_scale : Bool) : Except PdError (DF × DF) :=
  if data.hasCol feature then
    .ok
      (data.maskFilter (transformX lg data feature log_scale)
        (fun v => fvltB v (zBounds lg sq data feature left right log_scale).1 ||
          fvltB (zBounds lg sq data feature left right log_scale).2 v),
       data.maskFilter (transformX lg data feature log_scale)
        (fun v => fvltB (zBounds lg sq data feature left right log_scale).1 v &&
          fvltB v (zBounds lg sq data feature left right log_scale).2))
  else .error (.keyError feature)

/-- The `(lower_bound, upper_bound)` pair computed by
`find_outliers_quantile`: the `left`- and `right`-quantiles of the
feature column. -/
def quantileBounds (data : DF) (feature : String) (left right : ℚ) : FV × FV :=
  (quantileFV ((data.colVals feature).map FV.fin) left,
   quantileFV ((data.colVals feature).map FV.fin) right)

/-- `find_outliers_quantile(data, feature, left, right)`; pandas
validates each quantile probability against `[0, 1]`. -/
def find_outliers_quantile (data : DF) (feature : String)
    (left right : ℚ) : Except PdError (DF × DF) :=
  if data.hasCol feature then
    if 0 ≤ left ∧ left ≤ 1 then
      if 0 ≤ right ∧ right ≤ 1 then
        .ok
          (data.maskFilter ((data.colVals feature).map FV.fin)
            (fun v => fvltB v (quantileBounds data feature left right).1 ||
              fvltB (quantileBounds data feature left right).2 v),
           data.maskFilter ((data.colVals feature).map FV.fin)
            (fun v => fvltB (quantileBounds data feature left right).1 v &&
              fvltB v (quantileBounds data feature left right).2))
      else .error .valueError
    else .error .valueError
  else .error (.keyError feature)

instance {ε α : Type} [DecidableEq ε] [DecidableEq α] : DecidableEq (Except ε α) := fun x y =>
  match x, y with
  | .ok a, .ok b =>
    if h : a = b then isTrue (by rw [h])
    else isFalse (by intro he; cases he; exact h rfl)
  | .ok _, .error _ => isFalse (by intro he; cases he)
  | .error _, .ok _ => isFalse (by intro he; cases he)
  | .error e, .error f =>
    if h : e = f then isTrue (by rw [h])
    else isFalse (by intro he; cases he; exact h rfl)

/-- Every entry of the series is a finite value. -/
def AllFin (xs : List FV) : Prop := ∀ v ∈ xs, ∃ a, v = FV.fin a

/-- The log transform is only applied on its valid domain: whenever
`log_scale` is on, every value of the feature column exceeds `-1`. -/
def logDomainOK (data : DF) (feature : String) (log_scale : Bool) : Prop :=
  log_scale = true → ∀ v ∈ data.colVals feature, (-1 : ℚ) < v

/-- Number of rows classified as outliers (0 on an error result). -/
def outlierCount : Except PdError (DF × DF) → ℕ
  | .ok p => p.1.rows.length
  | .error _ => 0

/-- Scenario A of the spec: a single feature column `f` with values
`[1, 2, 3, 4, 5, 6, 100]`. -/
def dfA : DF := ⟨["f"], [[1], [2], [3], [4], [5], [6], [100]]⟩

/-- A single column `a` with values `[1, 2, 3]`. -/
def df123 : DF := ⟨["a"], [[1], [2], [3]]⟩

/-- A constant column `a` with values `[5, 5, 5]`. -/
def df555 : DF := ⟨["a"], [[5], [5], [5]]⟩

/-- A constant two-row column `a` with values `[5, 5]` (zero sample
variance). -/
def df55 : DF := ⟨["a"], [[5], [5]]⟩

/-- A single-row column `a` with value `9` (sample std undefined). -/
def df9 : DF := ⟨["a"], [[9]]⟩

/-- A single-row column `a` with value `-2`, outside the `log` domain. -/
def dfMinusTwo : DF := ⟨["a"], [[-2]]⟩

/-- A dataset with column `a` and no rows. -/
def dfEmpty : DF := ⟨["a"], []⟩

/-- A trivial stand-in for the real square root in concrete witnesses:
it satisfies `sqZ 0 = 0` and nonnegativity. -/
def sqZ : ℚ → ℚ := fun _ => 0

/-! ## Basic facts about the value type and comparisons -/

theorem fvle_fin_iff {a b : ℚ} : fvle (.fin a) (.fin b) ↔ a ≤ b := by
  simp [fvle, fvleB]

theorem fvltB_nan_right (x : FV) : fvltB x .nan = false := by
  cases x <;> rfl

theorem fvltB_nan_left (x : FV) : fvltB .nan x = false := by
  cases x <;> rfl

theorem fvltB_fin_fin {a b : ℚ} : fvltB (.fin a) (.fin b) = true ↔ a < b := by
  simp [fvltB]

/-- Sharpening the lower bound keeps the left outlier test monotone. -/
theorem fvltB_lb_mono {a b : ℚ} (hab : a ≤ b) (x : FV)
    (h : fvltB x (.fin a) = true) : fvltB x (.fin b) = true := by
  cases x with
  | nan => exact absurd h (by simp [fvltB])
  | ninf => rfl
  | pinf => exact absurd h (by simp [fvltB])
  | fin v =>
    rw [fvltB_fin_fin] at h ⊢
    linarith

/-- Sharpening the upper bound keeps the right outlier test monotone. -/
theorem fvltB_ub_mono {a b : ℚ} (hab : a ≤ b) (x : FV)
    (h : fvltB (.fin b) x = true) : fvltB (.fin a) x = true := by
  cases x with
  | nan => exact absurd h (by simp [fvltB])
  | ninf => exact absurd h (by simp [fvltB])
  | pinf => rfl
  | fin v =>
    rw [fvltB_fin_fin] at h ⊢
    linarith

theorem fadd_fin_fin (a b : ℚ) : fadd (.fin a) (.fin b) = .fin (a + b) := rfl

theorem fsub_fin_fin (a b : ℚ) : fsub (.fin a) (.fin b) = .fin (a - b) := by
  show FV.fin (a + -b) = FV.fin (a - b)
  rw [← sub_eq_add_neg]

theorem fmul_fin_fin (a b : ℚ) : fmul (.fin a) (.fin b) = .fin (a * b) := rfl

theorem fdivN_fin (a : ℚ) (n : ℕ) : fdivN (.fin a) n = .fin (a / n) := rfl

/-! ## Series plumbing -/

theorem dropna_eq_self {xs : List FV} (h : AllFin xs) : dropna xs = xs := by
  apply List.filter_eq_self.2
  intro v hv
  obtain ⟨a, rfl⟩ := h v hv
  rfl

theorem allfin_sortFV {xs : List FV} (h : AllFin xs) : AllFin (sortFV xs) := by
  intro v hv
  exact h v ((List.perm_insertionSort fvle xs).mem_iff.1 hv)

theorem sortFV_length (xs : List FV) : (sortFV xs).length = xs.length :=
  (List.perm_insertionSort fvle xs).length_eq

theorem sortFV_sorted (xs : List FV) : List.Sorted fvle (sortFV xs) :=
  List.sorted_insertionSort fvle xs

theorem sorted_getD_le {s : List FV} (hs : List.Sorted fvle s) {i j : ℕ}
    (hij : i ≤ j) (hj : j < s.length) :
    fvle (s.getD i .nan) (s.getD j .nan) := by
  have hi : i < s.length := lt_of_le_of_lt hij hj
  rw [List.getD_eq_getElem s .nan hi, List.getD_eq_getElem s .nan hj]
  have := hs.rel_get_of_le (a := ⟨i, hi⟩) (b := ⟨j, hj⟩) hij
  simpa using this

theorem allfin_getD {s : List FV} (hf : AllFin s) {i : ℕ} (hi : i < s.length) :
    ∃ a, s.getD i .nan = FV.fin a := by
  apply hf
  rw [List.getD_eq_getElem s .nan hi]
  exact List.getElem_mem ..

/-- Positionally filtering against a mask computed row-by-row is a plain
row filter. -/
theorem zip_map_filter {β : Type} (rows : List β) (t : β → FV) (p : FV → Bool) :
    ((rows.zip (rows.map t)).filter (fun rx => p rx.2)).map Prod.fst
      = rows.filter (fun r => p (t r)) := by
  induction rows with
  | nil => rfl
  | cons a l ih =>
    simp only [List.map_cons, List.zip_cons_cons, List.filter_cons]
    cases hp : p (t a)
    · simpa using ih
    · simpa using ih

theorem transformX_eq (lg : ℚ → ℚ) (data : DF) (feature : String) (log_scale : Bool) :
    transformX lg data feature log_scale
      = data.rows.map (rowT lg data feature log_scale) := by
  unfold transformX rowT DF.colVals
  cases log_scale <;> simp [List.map_map]

theorem transformX_allfin (lg : ℚ → ℚ) {data : DF} {feature : String} {log_scale : Bool}
    (h : logDomainOK data feature log_scale) :
    AllFin (transformX lg data feature log_scale) := by
  intro v hv
  cases log_scale with
  | false =>
    rw [show transformX lg data feature false
        = (data.colVals feature).map FV.fin from rfl] at hv
    obtain ⟨a, _, rfl⟩ := List.mem_map.1 hv
    exact ⟨a, rfl⟩
  | true =>
    rw [show transformX lg data feature true
        = (data.colVals feature).map (log1p lg) from rfl] at hv
    obtain ⟨a, ha, rfl⟩ := List.mem_map.1 hv
    have hgt := h rfl a ha
    unfold log1p
    rw [if_neg (by linarith), if_neg (by linarith)]
    exact ⟨lg a, rfl⟩

theorem filter_length_mono {α : Type} (l : List α) (p q : α → Bool)
    (h : ∀ a, p a = true → q a = true) :
    (l.filter p).length ≤ (l.filter q).length :=
  (List.monotone_filter_right l h).length_le

/-! ## Row-level characterisation of the three functions -/

theorem maskFilter_map (df : DF) (t : List ℚ → FV) (p : FV → Bool) :
    df.maskFilter (df.rows.map t) p
      = ⟨df.cols, df.rows.filter (fun r => p (t r))⟩ := by
  unfold DF.maskFilter
  rw [zip_map_filter]

theorem iqr_char (lg : ℚ → ℚ) (data : DF) (feature : String)
    (left right : ℚ) (log_scale : Bool) (h : data.hasCol feature = true) :
    find_outliers_iqr lg data feature left right log_scale =
      .ok
        (⟨data.cols, data.rows.filter (fun r =>
            fvltB (rowT lg data feature log_scale r)
              (iqrBounds lg data feature left right log_scale).1 ||
            fvltB (iqrBounds lg data feature left right log_scale).2
              (rowT lg data feature log_scale r))⟩,
         ⟨data.cols, data.rows.filter (fun r =>
            fvltB (iqrBounds lg data feature left right log_scale).1
              (rowT lg data feature log_scale r) &&
            fvltB (rowT lg data feature log_scale r)
              (iqrBounds lg data feature left right log_scale).2)⟩) := by
  unfold find_outliers_iqr
  rw [if_pos h, transformX_eq, maskFilter_map, maskFilter_map]

theorem z_char (lg sq : ℚ → ℚ) (data : DF) (feature : String)
    (left right : ℚ) (log_scale : Bool) (h : data.hasCol feature = true) :
    find_outliers_z_score lg sq data feature left right log_scale =
      .ok
        (⟨data.cols, data.rows.filter (fun r =>
            fvltB (rowT lg data feature log_scale r)
              (zBounds lg sq data feature left right log_scale).1 ||
            fvltB (zBounds lg sq data feature left right log_scale).2
              (rowT lg data feature log_scale r))⟩,
         ⟨data.cols, data.rows.filter (fun r =>
            fvltB (zBounds lg sq data feature left right log_scale).1
              (rowT lg data feature log_scale r) &&
            fvltB (rowT lg data feature log_scale r)
              (zBounds lg sq data feature left right log_scale).2)⟩) := by
  unfold find_outliers_z_score
  rw [if_pos h, transformX_eq, maskFilter_map, maskFilter_map]

/-- The transform of a single row for the quantile function (which has
no log option). -/
theorem quantile_char (data : DF) (feature : String) (left right : ℚ)
    (h : data.hasCol feature = true)
    (hl : 0 ≤ left ∧ left ≤ 1) (hr : 0 ≤ right ∧ right ≤ 1) :
    find_outliers_quantile data feature left right =
      .ok
        (⟨data.cols, data.rows.filter (fun r =>
            fvltB (.fin (r.getD (data.colIdx feature) 0))
              (quantileBounds data feature left right).1 ||
            fvltB (quantileBounds data feature left right).2
              (.fin (r.getD (data.colIdx feature) 0)))⟩,
         ⟨data.cols, data.rows.filter (fun r =>
            fvltB (quantileBounds data feature left right).1
              (.fin (r.getD (data.colIdx feature) 0)) &&
            fvltB (.fin (r.getD (data.colIdx feature) 0))
              (quantileBounds data feature left right).2)⟩) := by
  unfold find_outliers_quantile
  rw [if_pos h, if_pos hl, if_pos hr]
  have hmap : (data.colVals feature).map FV.fin
      = data.rows.map (fun r => FV.fin (r.getD (data.colIdx feature) 0)) := by
    unfold DF.colVals
    rw [List.map_map]
    rfl
  rw [hmap, maskFilter_map, maskFilter_map]

/-! ## Quantile interpolation: finiteness and monotonicity -/

theorem interpFV_eq_of_lt {s : List FV} {h : ℚ} {lo : ℕ}
    (hlo : (⌊h⌋).toNat = lo) (hbr : lo + 1 < s.length) {a b : ℚ}
    (ha : s.getD lo .nan = .fin a) (hb : s.getD (lo + 1) .nan = .fin b) :
    interpFV s h = .fin (a + (h - (lo : ℚ)) * (b - a)) := by
  unfold interpFV
  rw [hlo, if_pos hbr, ha, hb, fsub_fin_fin, fmul_fin_fin, fadd_fin_fin]

theorem interpFV_eq_of_ge {s : List FV} {h : ℚ} {lo : ℕ}
    (hlo : (⌊h⌋).toNat = lo) (hbr : ¬ lo + 1 < s.length) {a : ℚ}
    (ha : s.getD lo .nan = .fin a) :
    interpFV s h = .fin a := by
  unfold interpFV
  rw [hlo, if_neg hbr, ha]

theorem interp_fin_mono {s : List FV} (hs : List.Sorted fvle s) (hf : AllFin s)
    (hne : s ≠ []) {h h' : ℚ} (h0 : 0 ≤ h) (hhh : h ≤ h')
    (h1 : h' ≤ (s.length : ℚ) - 1) :
    ∃ x y, interpFV s h = .fin x ∧ interpFV s h' = .fin y ∧ x ≤ y := by
  have hn1 : 1 ≤ s.length := List.length_pos.2 hne
  have h0' : 0 ≤ h' := le_trans h0 hhh
  have hfl0 : (0 : ℤ) ≤ ⌊h⌋ := Int.floor_nonneg.2 h0
  have hfl0' : (0 : ℤ) ≤ ⌊h'⌋ := Int.floor_nonneg.2 h0'
  have hlocast : (((⌊h⌋).toNat : ℕ) : ℚ) = ((⌊h⌋ : ℤ) : ℚ) := by
    exact_mod_cast congrArg (fun z : ℤ => (z : ℚ)) (Int.toNat_of_nonneg hfl0)
  have hlocast' : (((⌊h'⌋).toNat : ℕ) : ℚ) = ((⌊h'⌋ : ℤ) : ℚ) := by
    exact_mod_cast congrArg (fun z : ℤ => (z : ℚ)) (Int.toNat_of_nonneg hfl0')
  have hlo_le_h : (((⌊h⌋).toNat : ℕ) : ℚ) ≤ h := by
    rw [hlocast]; exact Int.floor_le h
  have hlo'_le_h' : (((⌊h'⌋).toNat : ℕ) : ℚ) ≤ h' := by
    rw [hlocast']; exact Int.floor_le h'
  have h_lt_lo1 : h < (((⌊h⌋).toNat : ℕ) : ℚ) + 1 := by
    rw [hlocast]; exact_mod_cast Int.lt_floor_add_one h
  have hlole : (⌊h⌋).toNat ≤ (⌊h'⌋).toNat :=
    Int.toNat_le_toNat (Int.floor_mono hhh)
  have hfl'le : ⌊h'⌋ ≤ ((s.length - 1 : ℕ) : ℤ) := by
    have hle : h' ≤ ((s.length - 1 : ℕ) : ℚ) := by
      rw [Nat.cast_sub hn1]
      push_cast
      linarith
    calc ⌊h'⌋ ≤ ⌊((s.length - 1 : ℕ) : ℚ)⌋ := Int.floor_mono hle
    _ = ((s.length - 1 : ℕ) : ℤ) := Int.floor_natCast _
  have hlo'_lt : (⌊h'⌋).toNat < s.length := by omega
  have hlo_lt : (⌊h⌋).toNat < s.length := lt_of_le_of_lt hlole hlo'_lt
  obtain ⟨a, ha⟩ := allfin_getD hf hlo_lt
  by_cases hcase : (⌊h'⌋).toNat = (⌊h⌋).toNat
  · -- both positions fall in the same interpolation segment
    by_cases hbr : (⌊h⌋).toNat + 1 < s.length
    · obtain ⟨b, hb⟩ := allfin_getD hf hbr
      have hab : a ≤ b := by
        have hle := sorted_getD_le hs (Nat.le_succ (⌊h⌋).toNat) hbr
        rw [ha, hb] at hle
        exact fvle_fin_iff.1 hle
      refine ⟨a + (h - ((⌊h⌋).toNat : ℚ)) * (b - a),
             a + (h' - ((⌊h⌋).toNat : ℚ)) * (b - a),
             interpFV_eq_of_lt rfl hbr ha hb, ?_, ?_⟩
      · exact interpFV_eq_of_lt hcase hbr ha hb
      · have hmul := mul_le_mul_of_nonneg_right
          (by linarith : h - ((⌊h⌋).toNat : ℚ) ≤ h' - ((⌊h⌋).toNat : ℚ))
          (by linarith : (0 : ℚ) ≤ b - a)
        linarith
    · refine ⟨a, a, interpFV_eq_of_ge rfl hbr ha, ?_, le_refl a⟩
      exact interpFV_eq_of_ge hcase hbr ha
  · -- the second position lies in a strictly later segment
    have hlt : (⌊h⌋).toNat < (⌊h'⌋).toNat := lt_of_le_of_ne hlole (fun he => hcase he.symm)
    have hbr : (⌊h⌋).toNat + 1 < s.length := by omega
    obtain ⟨b, hb⟩ := allfin_getD hf hbr
    obtain ⟨c, hc⟩ := allfin_getD hf hlo'_lt
    have hab : a ≤ b := by
      have hle := sorted_getD_le hs (Nat.le_succ (⌊h⌋).toNat) hbr
      rw [ha, hb] at hle
      exact fvle_fin_iff.1 hle
    have hbc : b ≤ c := by
      have hle := sorted_getD_le hs (by omega : (⌊h⌋).toNat + 1 ≤ (⌊h'⌋).toNat) hlo'_lt
      rw [hb, hc] at hle
      exact fvle_fin_iff.1 hle
    have hx_le_b : a + (h - ((⌊h⌋).toNat : ℚ)) * (b - a) ≤ b := by
      have hmul := mul_le_mul_of_nonneg_right
        (by linarith : h - ((⌊h⌋).toNat : ℚ) ≤ 1)
        (by linarith : (0 : ℚ) ≤ b - a)
      linarith
    by_cases hbr' : (⌊h'⌋).toNat + 1 < s.length
    · obtain ⟨d, hd⟩ := allfin_getD hf hbr'
      have hcd : c ≤ d := by
        have hle := sorted_getD_le hs (Nat.le_succ (⌊h'⌋).toNat) hbr'
        rw [hc, hd] at hle
        exact fvle_fin_iff.1 hle
      refine ⟨a + (h - ((⌊h⌋).toNat : ℚ)) * (b - a),
             c + (h' - ((⌊h'⌋).toNat : ℚ)) * (d - c),
             interpFV_eq_of_lt rfl hbr ha hb,
             interpFV_eq_of_lt rfl hbr' hc hd, ?_⟩
      have hmul := mul_nonneg
        (by linarith : (0 : ℚ) ≤ h' - ((⌊h'⌋).toNat : ℚ))
        (by linarith : (0 : ℚ) ≤ d - c)
      linarith
    · refine ⟨a + (h - ((⌊h⌋).toNat : ℚ)) * (b - a), c,
             interpFV_eq_of_lt rfl hbr ha hb,
             interpFV_eq_of_ge rfl hbr' hc, ?_⟩
      linarith

theorem quantileFV_fin_mono {xs : List FV} (hf : AllFin xs) (hne : xs ≠ [])
    {p q : ℚ} (hp : 0 ≤ p) (hpq : p ≤ q) (hq : q ≤ 1) :
    ∃ x y, quantileFV xs p = .fin x ∧ quantileFV xs q = .fin y ∧ x ≤ y := by
  unfold quantileFV
  rw [dropna_eq_self hf, if_neg hne, if_neg hne]
  have hn1 : 1 ≤ xs.length := List.length_pos.2 hne
  have hcast : (0 : ℚ) ≤ (xs.length : ℚ) - 1 := by
    have : (1 : ℚ) ≤ (xs.length : ℚ) := by exact_mod_cast hn1
    linarith
  have hsne : sortFV xs ≠ [] := by
    intro hcon
    have := sortFV_length xs
    rw [hcon] at this
    simp at this
    omega
  apply interp_fin_mono (sortFV_sorted xs) (allfin_sortFV hf) hsne
  · exact mul_nonneg hp hcast
  · exact mul_le_mul_of_nonneg_right hpq hcast
  · rw [sortFV_length]
    calc q * ((xs.length : ℚ) - 1) ≤ 1 * ((xs.length : ℚ) - 1) :=
      mul_le_mul_of_nonneg_right hq hcast
    _ = (xs.length : ℚ) - 1 := one_mul _

theorem quantileFV_fin {xs : List FV} (hf : AllFin xs) (hne : xs ≠ [])
    {q : ℚ} (h0 : 0 ≤ q) (h1 : q ≤ 1) :
    ∃ x, quantileFV xs q = .fin x := by
  obtain ⟨x, y, hx, hy, _⟩ := quantileFV_fin_mono hf hne h0 (le_refl q) h1
  exact ⟨x, hx⟩

/-! ## Sums, means and variances of finite series -/

theorem fsum_fin {xs : List FV} (hf : AllFin xs) : ∃ a, fsum xs = .fin a := by
  induction xs with
  | nil => exact ⟨0, rfl⟩
  | cons v l ih =>
    obtain ⟨b, hb⟩ := ih (fun w hw => hf w (List.mem_cons_of_mem v hw))
    obtain ⟨a, rfl⟩ := hf v (List.mem_cons_self v l)
    refine ⟨a + b, ?_⟩
    show fadd (.fin a) (fsum l) = .fin (a + b)
    rw [hb]
    rfl

theorem fsum_fin_nonneg {xs : List FV}
    (h : ∀ v ∈ xs, ∃ a, v = .fin a ∧ 0 ≤ a) :
    ∃ a, fsum xs = .fin a ∧ 0 ≤ a := by
  induction xs with
  | nil => exact ⟨0, rfl, le_refl 0⟩
  | cons v l ih =>
    obtain ⟨b, hb, hb0⟩ := ih (fun w hw => h w (List.mem_cons_of_mem v hw))
    obtain ⟨a, rfl, ha⟩ := h v (List.mem_cons_self v l)
    refine ⟨a + b, ?_, by linarith⟩
    show fadd (.fin a) (fsum l) = .fin (a + b)
    rw [hb]
    rfl

theorem meanFV_fin {xs : List FV} (hf : AllFin xs) (hne : xs ≠ []) :
    ∃ m, meanFV xs = .fin m := by
  unfold meanFV
  rw [dropna_eq_self hf,
    if_neg (fun hc => hne (List.length_eq_zero.1 hc))]
  obtain ⟨a, ha⟩ := fsum_fin hf
  exact ⟨a / xs.length, by rw [ha]; rfl⟩

theorem varFV_fin_nonneg {xs : List FV} (hf : AllFin xs) (h2 : 2 ≤ xs.length) :
    ∃ v, varFV xs = .fin v ∧ 0 ≤ v := by
  obtain ⟨m, hm⟩ := meanFV_fin hf
    (fun hc => by rw [hc] at h2; simp at h2)
  unfold varFV
  rw [dropna_eq_self hf, if_neg (by omega)]
  have hterms : ∀ w ∈ xs.map
      (fun y => fmul (fsub y (meanFV xs)) (fsub y (meanFV xs))),
      ∃ a, w = .fin a ∧ 0 ≤ a := by
    intro w hw
    obtain ⟨y, hy, rfl⟩ := List.mem_map.1 hw
    obtain ⟨a, rfl⟩ := hf y hy
    rw [hm, fsub_fin_fin, fmul_fin_fin]
    exact ⟨(a - m) * (a - m), rfl, mul_self_nonneg _⟩
  obtain ⟨S, hS, hS0⟩ := fsum_fin_nonneg hterms
  refine ⟨S / ((xs.length - 1 : ℕ) : ℚ), ?_, ?_⟩
  · rw [hS]
    rfl
  · exact div_nonneg hS0 (by exact_mod_cast Nat.zero_le _)

/-! ## NaN propagation helpers -/

theorem fmul_nan_right (x : FV) : fmul x .nan = .nan := by cases x <;> rfl

theorem fsub_nan_right (x : FV) : fsub x .nan = .nan := by cases x <;> rfl

theorem fadd_nan_right (x : FV) : fadd x .nan = .nan := by cases x <;> rfl

theorem varFV_nan_of_short {xs : List FV} (h : (dropna xs).length < 2) :
    varFV xs = .nan := by
  unfold varFV
  rw [if_pos h]

theorem stdFV_nan {sq : ℚ → ℚ} {xs : List FV} (h : varFV xs = .nan) :
    stdFV sq xs = .nan := by
  unfold stdFV
  rw [h]

theorem zBounds_nan (lg sq : ℚ → ℚ) {data : DF} {feature : String}
    (left right : ℚ) {log_scale : Bool}
    (h : varFV (transformX lg data feature log_scale) = .nan) :
    zBounds lg sq data feature left right log_scale = (.nan, .nan) := by
  unfold zBounds
  rw [stdFV_nan h, fmul_nan_right, fmul_nan_right, fsub_nan_right,
    fadd_nan_right]

theorem quantileFV_nan_of_nil (q : ℚ) : quantileFV ([] : List FV) q = .nan := rfl

/-! ## Transform plumbing -/

theorem transformX_length (lg : ℚ → ℚ) (data : DF) (feature : String)
    (log_scale : Bool) :
    (transformX lg data feature log_scale).length = data.rows.length := by
  rw [transformX_eq]
  exact List.length_map _ _

theorem transformX_ne_nil (lg : ℚ → ℚ) (data : DF) (feature : String)
    (log_scale : Bool) (hne : data.rows ≠ []) :
    transformX lg data feature log_scale ≠ [] := by
  rw [transformX_eq]
  simpa using hne

theorem allfin_map_fin (l : List ℚ) : AllFin (l.map FV.fin) := by
  intro v hv
  obtain ⟨a, _, rfl⟩ := List.mem_map.1 hv
  exact ⟨a, rfl⟩

/-! ## Bound-shape lemmas -/

theorem iqrBounds_fin (lg : ℚ → ℚ) {data : DF} {feature : String}
    {log_scale : Bool} (hdom : logDomainOK data feature log_scale)
    (hne : data.rows ≠ []) :
    ∃ q1 q3, q1 ≤ q3 ∧ ∀ left right : ℚ,
      iqrBounds lg data feature left right log_scale
        = (.fin (q1 - (q3 - q1) * left), .fin (q3 + (q3 - q1) * right)) := by
  have hfin := transformX_allfin lg hdom
  have hne' := transformX_ne_nil lg data feature log_scale hne
  obtain ⟨q1, q3, h1, h3, h13⟩ := quantileFV_fin_mono hfin hne'
    (by norm_num : (0:ℚ) ≤ 1/4) (by norm_num : (1:ℚ)/4 ≤ 3/4)
    (by norm_num : (3:ℚ)/4 ≤ 1)
  refine ⟨q1, q3, h13, ?_⟩
  intro left right
  unfold iqrBounds
  rw [h1, h3, fsub_fin_fin, fmul_fin_fin, fsub_fin_fin, fmul_fin_fin,
    fadd_fin_fin]

theorem zBounds_fin (lg sq : ℚ → ℚ) {data : DF} {feature : String}
    {log_scale : Bool} (hdom : logDomainOK data feature log_scale)
    (h2 : 2 ≤ data.rows.length) (hsq : ∀ u, 0 ≤ u → 0 ≤ sq u) :
    ∃ m s', 0 ≤ s' ∧ ∀ left right : ℚ,
      zBounds lg sq data feature left right log_scale
        = (.fin (m - left * s'), .fin (m + right * s')) := by
  have hfin := transformX_allfin lg hdom
  have hlen : 2 ≤ (transformX lg data feature log_scale).length := by
    rw [transformX_length]; exact h2
  obtain ⟨m, hm⟩ := meanFV_fin hfin
    (fun hc => by rw [hc] at hlen; simp at hlen)
  obtain ⟨v, hv, hv0⟩ := varFV_fin_nonneg hfin hlen
  refine ⟨m, sq v, hsq v hv0, ?_⟩
  intro left right
  unfold zBounds stdFV
  rw [hm, hv]
  show (fsub (.fin m) (fmul (.fin left) (.fin (sq v))),
        fadd (.fin m) (fmul (.fin right) (.fin (sq v)))) = _
  rw [fmul_fin_fin, fmul_fin_fin, fsub_fin_fin, fadd_fin_fin]

/-! ## Mask monotonicity -/

theorem outMask_mono {lbA ubA lbB ubB : ℚ} (hlb : lbA ≤ lbB) (hub : ubB ≤ ubA)
    (x : FV) (h : (fvltB x (.fin lbA) || fvltB (.fin ubA) x) = true) :
    (fvltB x (.fin lbB) || fvltB (.fin ubB) x) = true := by
  rcases Bool.or_eq_true_iff.1 h with h1 | h2
  · exact Bool.or_eq_true_iff.2 (Or.inl (fvltB_lb_mono hlb x h1))
  · exact Bool.or_eq_true_iff.2 (Or.inr (fvltB_ub_mono hub x h2))

theorem fvltB_irrefl (a : FV) : fvltB a a = false := by
  cases a <;> simp [fvltB]

theorem fvltB_asymm {a b : FV} (h1 : fvltB a b = true)
    (h2 : fvltB b a = true) : False := by
  cases a <;> cases b <;> simp_all [fvltB] <;> linarith

/-- A row whose value equals a bound fails both masks, provided the
bounds are not inverted. -/
theorem boundary_masks_false {x lb ub : FV} (hninv : fvltB ub lb = false)
    (hx : x = lb ∨ x = ub) :
    (fvltB x lb || fvltB ub x) = false ∧ (fvltB lb x && fvltB x ub) = false := by
  rcases hx with rfl | rfl
  · constructor
    · rw [fvltB_irrefl, hninv]
      rfl
    · rw [fvltB_irrefl]
      exact Bool.false_and _
  · constructor
    · rw [fvltB_irrefl, hninv]
      rfl
    · rw [fvltB_irrefl]
      exact Bool.and_false _

/-- No row can pass both the outlier mask and the cleaned mask. -/
theorem filter_masks_disjoint {β : Type} (rows : List β) (t : β → FV)
    (lb ub : FV) (row : β)
    (h1 : row ∈ rows.filter (fun r => fvltB (t r) lb || fvltB ub (t r)))
    (h2 : row ∈ rows.filter (fun r => fvltB lb (t r) && fvltB (t r) ub)) :
    False := by
  have m1 := (List.mem_filter.1 h1).2
  have m2 := (List.mem_filter.1 h2).2
  rcases Bool.or_eq_true_iff.1 m1 with hlt | hgt
  · exact fvltB_asymm hlt (Bool.and_eq_true_iff.1 m2).1
  · exact fvltB_asymm hgt (Bool.and_eq_true_iff.1 m2).2

/-! ## Claim theorems -/

/-- C2: for every dataset, feature, and parameter values, the two
DataFrames returned by each of `find_outliers_iqr`,
`find_outliers_z_score`, and `find_outliers_quantile` are disjoint by
row identity: no row appears in both `outliers` and `cleaned`. -/
theorem outliers_cleaned_disjoint :
    (∀ (lg : ℚ → ℚ) (data : DF) (feature : String) (left right : ℚ)
        (log_scale : Bool) (out cl : DF),
      find_outliers_iqr lg data feature left right log_scale = .ok (out, cl) →
      ∀ row, ¬(row ∈ out.rows ∧ row ∈ cl.rows)) ∧
    (∀ (lg sq : ℚ → ℚ) (data : DF) (feature : String) (left right : ℚ)
        (log_scale : Bool) (out cl : DF),
      find_outliers_z_score lg sq data feature left right log_scale
        = .ok (out, cl) →
      ∀ row, ¬(row ∈ out.rows ∧ row ∈ cl.rows)) ∧
    (∀ (data : DF) (feature : String) (left right : ℚ) (out cl : DF),
      find_outliers_quantile data feature left right = .ok (out, cl) →
      ∀ row, ¬(row ∈ out.rows ∧ row ∈ cl.rows)) := by
  refine ⟨?_, ?_, ?_⟩
  · intro lg data feature left right log_scale out cl hok row ⟨ho, hc⟩
    by_cases hcol : data.hasCol feature = true
    · rw [iqr_char lg data feature left right log_scale hcol] at hok
      injection hok with h
      injection h with h1 h2
      subst h1
      subst h2
      exact filter_masks_disjoint data.rows _ _ _ row ho hc
    · unfold find_outliers_iqr at hok
      rw [if_neg hcol] at hok
      cases hok
  · intro lg sq data feature left right log_scale out cl hok row ⟨ho, hc⟩
    by_cases hcol : data.hasCol feature = true
    · rw [z_char lg sq data feature left right log_scale hcol] at hok
      injection hok with h
      injection h with h1 h2
      subst h1
      subst h2
      exact filter_masks_disjoint data.rows _ _ _ row ho hc
    · unfold find_outliers_z_score at hok
      rw [if_neg hcol] at hok
      cases hok
  · intro data feature left right out cl hok row ⟨ho, hc⟩
    by_cases hcol : data.hasCol feature = true
    · by_cases hl : 0 ≤ left ∧ left ≤ 1
      · by_cases hr : 0 ≤ right ∧ right ≤ 1
        · rw [quantile_char data feature left right hcol hl hr] at hok
          injection hok with h
          injection h with h1 h2
          subst h1
          subst h2
          exact filter_masks_disjoint data.rows _ _ _ row ho hc
        · unfold find_outliers_quantile at hok
          rw [if_pos hcol, if_pos hl, if_neg hr] at hok
          cases hok
      · unfold find_outliers_quantile at hok
        rw [if_pos hcol, if_neg hl] at hok
        cases hok
    · unfold find_outliers_quantile at hok
      rw [if_neg hcol] at hok
      cases hok

/-- C2 witness at a concrete instance. -/
theorem outliers_cleaned_disjoint_witness :
    find_outliers_iqr id dfA "f" (3/2) (3/2) false =
      .ok (⟨["f"], [[100]]⟩, ⟨["f"], [[1], [2], [3], [4], [5], [6]]⟩) ∧
    ¬(([100] : List ℚ) ∈ (⟨["f"], [[100]]⟩ : DF).rows ∧
      ([100] : List ℚ) ∈ (⟨["f"], [[1], [2], [3], [4], [5], [6]]⟩ : DF).rows) :=
  ⟨by with_unfolding_all decide,
   outliers_cleaned_disjoint.1 id dfA "f" (3/2) (3/2) false _ _
     (by with_unfolding_all decide) [100]⟩

/-- C3: every row of either returned DataFrame is an original input row
(with unchanged, untransformed values), and both outputs keep the input's
column set; the log transform never alters output values. -/
theorem outputs_preserve_rows :
    (∀ (lg : ℚ → ℚ) (data : DF) (feature : String) (left right : ℚ)
        (log_scale : Bool) (out cl : DF),
      find_outliers_iqr lg data feature left right log_scale = .ok (out, cl) →
      out.cols = data.cols ∧ cl.cols = data.cols ∧
      (∀ r ∈ out.rows, r ∈ data.rows) ∧ (∀ r ∈ cl.rows, r ∈ data.rows)) ∧
    (∀ (lg sq : ℚ → ℚ) (data : DF) (feature : String) (left right : ℚ)
        (log_scale : Bool) (out cl : DF),
      find_outliers_z_score lg sq data feature left right log_scale
        = .ok (out, cl) →
      out.cols = data.cols ∧ cl.cols = data.cols ∧
      (∀ r ∈ out.rows, r ∈ data.rows) ∧ (∀ r ∈ cl.rows, r ∈ data.rows)) ∧
    (∀ (data : DF) (feature : String) (left right : ℚ) (out cl : DF),
      find_outliers_quantile data feature left right = .ok (out, cl) →
      out.cols = data.cols ∧ cl.cols = data.cols ∧
      (∀ r ∈ out.rows, r ∈ data.rows) ∧ (∀ r ∈ cl.rows, r ∈ data.rows)) := by
  refine ⟨?_, ?_, ?_⟩
  · intro lg data feature left right log_scale out cl hok
    by_cases hcol : data.hasCol feature = true
    · rw [iqr_char lg data feature left right log_scale hcol] at hok
      injection hok with h
      injection h with h1 h2
      subst h1
      subst h2
      exact ⟨rfl, rfl,
        fun r hr => (List.mem_filter.1 hr).1,
        fun r hr => (List.mem_filter.1 hr).1⟩
    · unfold find_outliers_iqr at hok
      rw [if_neg hcol] at hok
      cases hok
  · intro lg sq data feature left right log_scale out cl hok
    by_cases hcol : data.hasCol feature = true
    · rw [z_char lg sq data feature left right log_scale hcol] at hok
      injection hok with h
      injection h with h1 h2
      subst h1
      subst h2
      exact ⟨rfl, rfl,
        fun r hr => (List.mem_filter.1 hr).1,
        fun r hr => (List.mem_filter.1 hr).1⟩
    · unfold find_outliers_z_score at hok
      rw [if_neg hcol] at hok
      cases hok
  · intro data feature left right out cl hok
    by_cases hcol : data.hasCol feature = true
    · by_cases hl : 0 ≤ left ∧ left ≤ 1
      · by_cases hr : 0 ≤ right ∧ right ≤ 1
        · rw [quantile_char data feature left right hcol hl hr] at hok
          injection hok with h
          injection h with h1 h2
          subst h1
          subst h2
          exact ⟨rfl, rfl,
            fun r hr' => (List.mem_filter.1 hr').1,
            fun r hr' => (List.mem_filter.1 hr').1⟩
        · unfold find_outliers_quantile at hok
          rw [if_pos hcol, if_pos hl, if_neg hr] at hok
          cases hok
      · unfold find_outliers_quantile at hok
        rw [if_pos hcol, if_neg hl] at hok
        cases hok
    · unfold find_outliers_quantile at hok
      rw [if_neg hcol] at hok
      cases hok

/-- C3 witness at a concrete instance. -/
theorem outputs_preserve_rows_witness :
    find_outliers_iqr id dfA "f" (3/2) (3/2) false =
      .ok (⟨["f"], [[100]]⟩, ⟨["f"], [[1], [2], [3], [4], [5], [6]]⟩) ∧
    ((⟨["f"], [[100]]⟩ : DF).cols = dfA.cols ∧
     (⟨["f"], [[1], [2], [3], [4], [5], [6]]⟩ : DF).cols = dfA.cols ∧
     (∀ r ∈ (⟨["f"], [[100]]⟩ : DF).rows, r ∈ dfA.rows) ∧
     (∀ r ∈ (⟨["f"], [[1], [2], [3], [4], [5], [6]]⟩ : DF).rows,
        r ∈ dfA.rows)) :=
  ⟨by with_unfolding_all decide,
   outputs_preserve_rows.1 id dfA "f" (3/2) (3/2) false _ _
     (by with_unfolding_all decide)⟩

/-- C8: when `feature` is not a column of `data`, each of the three
functions fails fast with the missing-column (`KeyError`) error and
returns no partial result. -/
theorem missing_column_error
    (lg sq : ℚ → ℚ) (data : DF) (feature : String) (left right : ℚ)
    (log_scale : Bool) (h : data.hasCol feature = false) :
    find_outliers_iqr lg data feature left right log_scale
      = .error (.keyError feature) ∧
    find_outliers_z_score lg sq data feature left right log_scale
      = .error (.keyError feature) ∧
    find_outliers_quantile data feature left right
      = .error (.keyError feature) := by
  have hcol : ¬ (data.hasCol feature = true) := by
    rw [h]
    simp
  refine ⟨?_, ?_, ?_⟩
  · unfold find_outliers_iqr
    rw [if_neg hcol]
  · unfold find_outliers_z_score
    rw [if_neg hcol]
  · unfold find_outliers_quantile
    rw [if_neg hcol]

/-- C8 witness: `dfA` has no column `g`. -/
theorem missing_column_error_witness :
    dfA.hasCol "g" = false ∧
    find_outliers_iqr id dfA "g" (3/2) (3/2) false
      = .error (.keyError "g") :=
  ⟨by with_unfolding_all decide,
   (missing_column_error id sqZ dfA "g" (3/2) (3/2) false
     (by with_unfolding_all decide)).1⟩

/-- C4 counterexample: on the Scenario-A data `[1,2,3,4,5,6,100]` the
source's linear-interpolation quantile gives `Q1 = 5/2` (not `2`) and
`Q3 = 11/2` (not `5`), hence bounds `(-2, 10)` (not `(-5/2, 19/2)`),
refuting the claim's stated intermediate values. -/
theorem scenarioA_quartile_counterexample :
    quantileFV (transformX id dfA "f" false) (1/4) = .fin (5/2) ∧
    quantileFV (transformX id dfA "f" false) (3/4) = .fin (11/2) ∧
    ¬ quantileFV (transformX id dfA "f" false) (1/4) = .fin 2 ∧
    ¬ quantileFV (transformX id dfA "f" false) (3/4) = .fin 5 ∧
    iqrBounds id dfA "f" (3/2) (3/2) false = (.fin (-2), .fin 10) ∧
    ¬ iqrBounds id dfA "f" (3/2) (3/2) false = (.fin (-5/2), .fin (19/2)) := by
  refine ⟨?_, ?_, ?_, ?_, ?_, ?_⟩ <;> with_unfolding_all decide

/-- C4 (amended): on Scenario A with `left = right = 1.5` and
`log_scale = False`, the code computes `Q1 = 5/2`, `Q3 = 11/2`,
`IQR = 3`, bounds `(-2, 10)`, and returns outliers `{100}` and cleaned
`{1, 2, 3, 4, 5, 6}` (the claimed output sets are correct; only the
claimed intermediate quartile/bound values differ). -/
theorem scenarioA_iqr_eval :
    quantileFV (transformX id dfA "f" false) (1/4) = .fin (5/2) ∧
    quantileFV (transformX id dfA "f" false) (3/4) = .fin (11/2) ∧
    fsub (quantileFV (transformX id dfA "f" false) (3/4))
      (quantileFV (transformX id dfA "f" false) (1/4)) = .fin 3 ∧
    iqrBounds id dfA "f" (3/2) (3/2) false = (.fin (-2), .fin 10) ∧
    find_outliers_iqr id dfA "f" (3/2) (3/2) false =
      .ok (⟨["f"], [[100]]⟩, ⟨["f"], [[1], [2], [3], [4], [5], [6]]⟩) := by
  refine ⟨?_, ?_, ?_, ?_, ?_⟩ <;> with_unfolding_all decide

/-- C9 counterexample: with the constant column `[5,5,5]` and inverted
quantile probabilities `left = 0.9 > right = 0.1`, both bounds equal `5`,
so `lower_bound > upper_bound` fails (the bounds are merely
`lower_bound ≥ upper_bound`). -/
theorem quantile_inverted_counterexample :
    (1 : ℚ)/10 < 9/10 ∧
    quantileBounds df555 "a" (9/10) (1/10) = (.fin 5, .fin 5) ∧
    ¬ fvltB (quantileBounds df555 "a" (9/10) (1/10)).2
        (quantileBounds df555 "a" (9/10) (1/10)).1 = true := by
  refine ⟨?_, ?_, ?_⟩ <;> with_unfolding_all decide

/-- C9 (amended): for quantile probabilities with `left ≥ right` (on a
nonempty column), no error is raised, the bounds satisfy
`lower_bound ≥ upper_bound` (with equality possible, e.g. on constant
columns), the comparisons apply literally, `cleaned` is empty, and
`outliers` holds exactly the rows strictly below `lower_bound` or
strictly above `upper_bound`. -/
theorem quantile_inverted_bounds
    (data : DF) (feature : String) (left right : ℚ)
    (hcol : data.hasCol feature = true) (hne : data.rows ≠ [])
    (hr0 : 0 ≤ right) (hrl : right ≤ left) (hl1 : left ≤ 1) :
    ∃ lb ub : ℚ,
      quantileBounds data feature left right = (.fin lb, .fin ub) ∧
      ub ≤ lb ∧
      find_outliers_quantile data feature left right =
        .ok
          (⟨data.cols, data.rows.filter (fun r =>
              fvltB (.fin (r.getD (data.colIdx feature) 0)) (.fin lb) ||
              fvltB (.fin ub) (.fin (r.getD (data.colIdx feature) 0)))⟩,
           ⟨data.cols, []⟩) := by
  have hfin := allfin_map_fin (data.colVals feature)
  have hne' : (data.colVals feature).map FV.fin ≠ [] := by
    unfold DF.colVals
    simpa using hne
  obtain ⟨ub, lb, hub, hlb, hule⟩ := quantileFV_fin_mono hfin hne' hr0 hrl hl1
  have hqb : quantileBounds data feature left right = (.fin lb, .fin ub) := by
    unfold quantileBounds
    rw [hub, hlb]
  refine ⟨lb, ub, hqb, hule, ?_⟩
  have heval := quantile_char data feature left right hcol
    ⟨le_trans hr0 hrl, hl1⟩ ⟨hr0, le_trans hrl hl1⟩
  rw [hqb] at heval
  rw [heval]
  have hnilc : data.rows.filter (fun r =>
      fvltB ((.fin lb, .fin ub) : FV × FV).1
        (.fin (r.getD (data.colIdx feature) 0)) &&
      fvltB (.fin (r.getD (data.colIdx feature) 0))
        ((.fin lb, .fin ub) : FV × FV).2) = [] := by
    apply List.filter_eq_nil.2
    intro r hr hcon
    obtain ⟨h1, h2⟩ := Bool.and_eq_true_iff.1 hcon
    rw [show ((.fin lb, .fin ub) : FV × FV).1 = .fin lb from rfl] at h1
    rw [show ((.fin lb, .fin ub) : FV × FV).2 = .fin ub from rfl] at h2
    rw [fvltB_fin_fin] at h1 h2
    linarith
  rw [hnilc]

/-- C9 witness at a concrete inverted instance. -/
theorem quantile_inverted_bounds_witness :
    df555.hasCol "a" = true ∧ df555.rows ≠ [] ∧
    (0 : ℚ) ≤ 1/10 ∧ (1 : ℚ)/10 ≤ 9/10 ∧ (9 : ℚ)/10 ≤ 1 ∧
    (∃ lb ub : ℚ,
      quantileBounds df555 "a" (9/10) (1/10) = (.fin lb, .fin ub) ∧
      ub ≤ lb ∧
      find_outliers_quantile df555 "a" (9/10) (1/10) =
        .ok
          (⟨df555.cols, df555.rows.filter (fun r =>
              fvltB (.fin (r.getD (df555.colIdx "a") 0)) (.fin lb) ||
              fvltB (.fin ub) (.fin (r.getD (df555.colIdx "a") 0)))⟩,
           ⟨df555.cols, []⟩)) :=
  ⟨by with_unfolding_all decide, by with_unfolding_all decide,
   by norm_num, by norm_num, by norm_num,
   quantile_inverted_bounds df555 "a" (9/10) (1/10)
     (by with_unfolding_all decide) (by with_unfolding_all decide)
     (by norm_num) (by norm_num) (by norm_num)⟩

/-- C1 counterexample: with inverted quantile probabilities
(`left = 1`, `right = 0`) on column `[1,2,3]`, the bounds are
`(3, 1)`; the row `[3]`, whose value `3` equals `lower_bound` exactly,
satisfies `3 > upper_bound = 1` and is therefore returned among the
outliers — not "in neither set" as the claim states for every
parameter choice. -/
theorem boundary_row_in_outliers_counterexample :
    quantileBounds df123 "a" 1 0 = (.fin 3, .fin 1) ∧
    find_outliers_quantile df123 "a" 1 0 =
      .ok (⟨["a"], [[1], [2], [3]]⟩, ⟨["a"], []⟩) ∧
    ([3] : List ℚ) ∈ (⟨["a"], [[1], [2], [3]]⟩ : DF).rows := by
  refine ⟨?_, ?_, ?_⟩ <;> with_unfolding_all decide

/-- C1 (amended): each function partitions rows against its computed
bounds: a row strictly outside `(lower_bound, upper_bound)` lands in
`outliers`, a row strictly inside lands in `cleaned`, and — provided the
bounds are not inverted (`¬ upper_bound < lower_bound`) — a row whose
transformed value equals a bound lands in neither output. With inverted
bounds a boundary row can be an outlier (see the counterexample). -/
theorem partition_by_bounds :
    (∀ (lg : ℚ → ℚ) (data : DF) (feature : String) (left right : ℚ)
        (log_scale : Bool) (out cl : DF),
      find_outliers_iqr lg data feature left right log_scale = .ok (out, cl) →
      ∀ r ∈ data.rows,
        ((fvltB (rowT lg data feature log_scale r)
            (iqrBounds lg data feature left right log_scale).1 ||
          fvltB (iqrBounds lg data feature left right log_scale).2
            (rowT lg data feature log_scale r)) = true → r ∈ out.rows) ∧
        ((fvltB (iqrBounds lg data feature left right log_scale).1
            (rowT lg data feature log_scale r) &&
          fvltB (rowT lg data feature log_scale r)
            (iqrBounds lg data feature left right log_scale).2) = true →
          r ∈ cl.rows) ∧
        (fvltB (iqrBounds lg data feature left right log_scale).2
            (iqrBounds lg data feature left right log_scale).1 = false →
          (rowT lg data feature log_scale r
              = (iqrBounds lg data feature left right log_scale).1 ∨
           rowT lg data feature log_scale r
              = (iqrBounds lg data feature left right log_scale).2) →
          ¬ r ∈ out.rows ∧ ¬ r ∈ cl.rows)) ∧
    (∀ (lg sq : ℚ → ℚ) (data : DF) (feature : String) (left right : ℚ)
        (log_scale : Bool) (out cl : DF),
      find_outliers_z_score lg sq data feature left right log_scale
        = .ok (out, cl) →
      ∀ r ∈ data.rows,
        ((fvltB (rowT lg data feature log_scale r)
            (zBounds lg sq data feature left right log_scale).1 ||
          fvltB (zBounds lg sq data feature left right log_scale).2
            (rowT lg data feature log_scale r)) = true → r ∈ out.rows) ∧
        ((fvltB (zBounds lg sq data feature left right log_scale).1
            (rowT lg data feature log_scale r) &&
          fvltB (rowT lg data feature log_scale r)
            (zBounds lg sq data feature left right log_scale).2) = true →
          r ∈ cl.rows) ∧
        (fvltB (zBounds lg sq data feature left right log_scale).2
            (zBounds lg sq data feature left right log_scale).1 = false →
          (rowT lg data feature log_scale r
              = (zBounds lg sq data feature left right log_scale).1 ∨
           rowT lg data feature log_scale r
              = (zBounds lg sq data feature left right log_scale).2) →
          ¬ r ∈ out.rows ∧ ¬ r ∈ cl.rows)) ∧
    (∀ (data : DF) (feature : String) (left right : ℚ) (out cl : DF),
      find_outliers_quantile data feature left right = .ok (out, cl) →
      ∀ r ∈ data.rows,
        ((fvltB (.fin (r.getD (data.colIdx feature) 0))
            (quantileBounds data feature left right).1 ||
          fvltB (quantileBounds data feature left right).2
            (.fin (r.getD (data.colIdx feature) 0))) = true → r ∈ out.rows) ∧
        ((fvltB (quantileBounds data feature left right).1
            (.fin (r.getD (data.colIdx feature) 0)) &&
          fvltB (.fin (r.getD (data.colIdx feature) 0))
            (quantileBounds data feature left right).2) = true →
          r ∈ cl.rows) ∧
        (fvltB (quantileBounds data feature left right).2
            (quantileBounds data feature left right).1 = false →
          ((.fin (r.getD (data.colIdx feature) 0) : FV)
              = (quantileBounds data feature left right).1 ∨
           (.fin (r.getD (data.colIdx feature) 0) : FV)
              = (quantileBounds data feature left right).2) →
          ¬ r ∈ out.rows ∧ ¬ r ∈ cl.rows)) := by
  refine ⟨?_, ?_, ?_⟩
  · intro lg data feature left right log_scale out cl hok r hr
    by_cases hcol : data.hasCol feature = true
    · rw [iqr_char lg data feature left right log_scale hcol] at hok
      injection hok with h
      injection h with h1 h2
      subst h1
      subst h2
      refine ⟨fun hm => List.mem_filter.2 ⟨hr, hm⟩,
        fun hm => List.mem_filter.2 ⟨hr, hm⟩, ?_⟩
      intro hninv hx
      obtain ⟨hmo, hmc⟩ := boundary_masks_false hninv hx
      constructor
      · intro hin
        have hmt := (List.mem_filter.1 hin).2
        rw [hmo] at hmt
        exact Bool.false_ne_true hmt
      · intro hin
        have hmt := (List.mem_filter.1 hin).2
        rw [hmc] at hmt
        exact Bool.false_ne_true hmt
    · unfold find_outliers_iqr at hok
      rw [if_neg hcol] at hok
      cases hok
  · intro lg sq data feature left right log_scale out cl hok r hr
    by_cases hcol : data.hasCol feature = true
    · rw [z_char lg sq data feature left right log_scale hcol] at hok
      injection hok with h
      injection h with h1 h2
      subst h1
      subst h2
      refine ⟨fun hm => List.mem_filter.2 ⟨hr, hm⟩,
        fun hm => List.mem_filter.2 ⟨hr, hm⟩, ?_⟩
      intro hninv hx
      obtain ⟨hmo, hmc⟩ := boundary_masks_false hninv hx
      constructor
      · intro hin
        have hmt := (List.mem_filter.1 hin).2
        rw [hmo] at hmt
        exact Bool.false_ne_true hmt
      · intro hin
        have hmt := (List.mem_filter.1 hin).2
        rw [hmc] at hmt
        exact Bool.false_ne_true hmt
    · unfold find_outliers_z_score at hok
      rw [if_neg hcol] at hok
      cases hok
  · intro data feature left right out cl hok r hr
    by_cases hcol : data.hasCol feature = true
    · by_cases hl : 0 ≤ left ∧ left ≤ 1
      · by_cases hrq : 0 ≤ right ∧ right ≤ 1
        · rw [quantile_char data feature left right hcol hl hrq] at hok
          injection hok with h
          injection h with h1 h2
          subst h1
          subst h2
          refine ⟨fun hm => List.mem_filter.2 ⟨hr, hm⟩,
            fun hm => List.mem_filter.2 ⟨hr, hm⟩, ?_⟩
          intro hninv hx
          obtain ⟨hmo, hmc⟩ := boundary_masks_false hninv hx
          constructor
          · intro hin
            have hmt := (List.mem_filter.1 hin).2
            rw [hmo] at hmt
            exact Bool.false_ne_true hmt
          · intro hin
            have hmt := (List.mem_filter.1 hin).2
            rw [hmc] at hmt
            exact Bool.false_ne_true hmt
        · unfold find_outliers_quantile at hok
          rw [if_pos hcol, if_pos hl, if_neg hrq] at hok
          cases hok
      · unfold find_outliers_quantile at hok
        rw [if_pos hcol, if_neg hl] at hok
        cases hok
    · unfold find_outliers_quantile at hok
      rw [if_neg hcol] at hok
      cases hok

/-- C1 witness at a concrete instance (Scenario A, row `[100]`). -/
theorem partition_by_bounds_witness :
    find_outliers_iqr id dfA "f" (3/2) (3/2) false =
      .ok (⟨["f"], [[100]]⟩, ⟨["f"], [[1], [2], [3], [4], [5], [6]]⟩) ∧
    ([100] : List ℚ) ∈ dfA.rows ∧
    ((fvltB (rowT id dfA "f" false [100])
        (iqrBounds id dfA "f" (3/2) (3/2) false).1 ||
      fvltB (iqrBounds id dfA "f" (3/2) (3/2) false).2
        (rowT id dfA "f" false [100])) = true →
      ([100] : List ℚ) ∈ (⟨["f"], [[100]]⟩ : DF).rows) :=
  ⟨by with_unfolding_all decide, by with_unfolding_all decide,
   (partition_by_bounds.1 id dfA "f" (3/2) (3/2) false
     (⟨["f"], [[100]]⟩ : DF) (⟨["f"], [[1], [2], [3], [4], [5], [6]]⟩ : DF)
     (by with_unfolding_all decide) [100] (by with_unfolding_all decide)).1⟩

/-- C7 counterexample: with `log_scale=True` and the value `-2 ≤ -1` in
the column, neither function raises any error; both return normally
(`np.log` of a negative number silently yields `nan`, which flows into
the comparisons and bound computations), refuting the claimed fail-fast
behaviour. -/
theorem log_domain_no_error_counterexample :
    (-2 : ℚ) ≤ -1 ∧
    find_outliers_iqr id dfMinusTwo "a" (3/2) (3/2) true =
      .ok (⟨["a"], []⟩, ⟨["a"], []⟩) ∧
    find_outliers_z_score id sqZ dfMinusTwo "a" 3 3 true =
      .ok (⟨["a"], []⟩, ⟨["a"], []⟩) := by
  refine ⟨?_, ?_, ?_⟩ <;> with_unfolding_all decide

/-- C7 (amended): with `log_scale=True`, values `< -1` are transformed
to `nan` rather than raising an error; the functions return normally,
and every comparison against the `nan` transformed value is false, so
such rows appear in neither `outliers` nor `cleaned` (they are silently
dropped from both outputs, and skipped by the bound computations). -/
theorem log_domain_nan_rows_excluded :
    (∀ (lg : ℚ → ℚ) (data : DF) (feature : String) (left right : ℚ),
      data.hasCol feature = true →
      ∃ p, find_outliers_iqr lg data feature left right true = .ok p ∧
        ∀ r ∈ data.rows, r.getD (data.colIdx feature) 0 < -1 →
          ¬ r ∈ p.1.rows ∧ ¬ r ∈ p.2.rows) ∧
    (∀ (lg sq : ℚ → ℚ) (data : DF) (feature : String) (left right : ℚ),
      data.hasCol feature = true →
      ∃ p, find_outliers_z_score lg sq data feature left right true = .ok p ∧
        ∀ r ∈ data.rows, r.getD (data.colIdx feature) 0 < -1 →
          ¬ r ∈ p.1.rows ∧ ¬ r ∈ p.2.rows) := by
  constructor
  · intro lg data feature left right hcol
    refine ⟨_, iqr_char lg data feature left right true hcol, ?_⟩
    intro r hr hneg
    have hx : rowT lg data feature true r = .nan := by
      unfold rowT log1p
      rw [if_pos rfl, if_pos hneg]
    constructor
    · intro hin
      have hmt := (List.mem_filter.1 hin).2
      rw [hx, fvltB_nan_left, fvltB_nan_right] at hmt
      exact Bool.false_ne_true hmt
    · intro hin
      have hmt := (List.mem_filter.1 hin).2
      rw [hx, fvltB_nan_left, fvltB_nan_right] at hmt
      exact Bool.false_ne_true hmt
  · intro lg sq data feature left right hcol
    refine ⟨_, z_char lg sq data feature left right true hcol, ?_⟩
    intro r hr hneg
    have hx : rowT lg data feature true r = .nan := by
      unfold rowT log1p
      rw [if_pos rfl, if_pos hneg]
    constructor
    · intro hin
      have hmt := (List.mem_filter.1 hin).2
      rw [hx, fvltB_nan_left, fvltB_nan_right] at hmt
      exact Bool.false_ne_true hmt
    · intro hin
      have hmt := (List.mem_filter.1 hin).2
      rw [hx, fvltB_nan_left, fvltB_nan_right] at hmt
      exact Bool.false_ne_true hmt

/-- C7 witness at a concrete instance. -/
theorem log_domain_nan_rows_excluded_witness :
    dfMinusTwo.hasCol "a" = true ∧
    (∃ p, find_outliers_iqr id dfMinusTwo "a" (3/2) (3/2) true = .ok p ∧
      ∀ r ∈ dfMinusTwo.rows, r.getD (dfMinusTwo.colIdx "a") 0 < -1 →
        ¬ r ∈ p.1.rows ∧ ¬ r ∈ p.2.rows) :=
  ⟨by with_unfolding_all decide,
   log_domain_nan_rows_excluded.1 id dfMinusTwo "a" (3/2) (3/2)
     (by with_unfolding_all decide)⟩

/-- C10: whenever a computed bound is `nan` — for an empty feature
column in any of the three functions, or a column with at most one row
in `find_outliers_z_score` (sample std with `n - 1` denominator
undefined) — no error is raised and both returned DataFrames are empty,
since every comparison against a `nan` bound is false. -/
theorem nan_bounds_empty_outputs :
    (∀ (lg : ℚ → ℚ) (data : DF) (feature : String) (left right : ℚ)
        (log_scale : Bool),
      data.hasCol feature = true → data.rows = [] →
      find_outliers_iqr lg data feature left right log_scale =
        .ok (⟨data.cols, []⟩, ⟨data.cols, []⟩) ∧
      iqrBounds lg data feature left right log_scale = (.nan, .nan)) ∧
    (∀ (lg sq : ℚ → ℚ) (data : DF) (feature : String) (left right : ℚ)
        (log_scale : Bool),
      data.hasCol feature = true → data.rows.length ≤ 1 →
      find_outliers_z_score lg sq data feature left right log_scale =
        .ok (⟨data.cols, []⟩, ⟨data.cols, []⟩) ∧
      stdFV sq (transformX lg data feature log_scale) = .nan ∧
      zBounds lg sq data feature left right log_scale = (.nan, .nan)) ∧
    (∀ (data : DF) (feature : String) (left right : ℚ),
      data.hasCol feature = true → 0 ≤ left → left ≤ 1 →
      0 ≤ right → right ≤ 1 → data.rows = [] →
      find_outliers_quantile data feature left right =
        .ok (⟨data.cols, []⟩, ⟨data.cols, []⟩) ∧
      quantileBounds data feature left right = (.nan, .nan)) := by
  refine ⟨?_, ?_, ?_⟩
  · intro lg data feature left right log_scale hcol hnil
    have hxnil : transformX lg data feature log_scale = [] := by
      rw [transformX_eq, hnil]
      rfl
    have hbnds : iqrBounds lg data feature left right log_scale
        = (.nan, .nan) := by
      unfold iqrBounds
      rw [hxnil]
      rfl
    refine ⟨?_, hbnds⟩
    rw [iqr_char lg data feature left right log_scale hcol, hnil]
    rfl
  · intro lg sq data feature left right log_scale hcol hlen
    have hvar : varFV (transformX lg data feature log_scale) = .nan := by
      apply varFV_nan_of_short
      calc (dropna (transformX lg data feature log_scale)).length
        ≤ (transformX lg data feature log_scale).length :=
          List.length_filter_le _ _
      _ = data.rows.length := transformX_length lg data feature log_scale
      _ ≤ 1 := hlen
      _ < 2 := by omega
    have hbnds := zBounds_nan lg sq left right hvar
    refine ⟨?_, stdFV_nan hvar, hbnds⟩
    rw [z_char lg sq data feature left right log_scale hcol]
    have hnilo : data.rows.filter (fun r =>
        fvltB (rowT lg data feature log_scale r)
          (zBounds lg sq data feature left right log_scale).1 ||
        fvltB (zBounds lg sq data feature left right log_scale).2
          (rowT lg data feature log_scale r)) = [] := by
      apply List.filter_eq_nil.2
      intro r hr hcon
      rw [hbnds] at hcon
      rw [show ((FV.nan, FV.nan) : FV × FV).1 = .nan from rfl,
        show ((FV.nan, FV.nan) : FV × FV).2 = .nan from rfl,
        fvltB_nan_left, fvltB_nan_right] at hcon
      exact Bool.false_ne_true hcon
    have hnilc : data.rows.filter (fun r =>
        fvltB (zBounds lg sq data feature left right log_scale).1
          (rowT lg data feature log_scale r) &&
        fvltB (rowT lg data feature log_scale r)
          (zBounds lg sq data feature left right log_scale).2) = [] := by
      apply List.filter_eq_nil.2
      intro r hr hcon
      rw [hbnds] at hcon
      rw [show ((FV.nan, FV.nan) : FV × FV).1 = .nan from rfl,
        show ((FV.nan, FV.nan) : FV × FV).2 = .nan from rfl,
        fvltB_nan_left, fvltB_nan_right] at hcon
      exact Bool.false_ne_true hcon
    rw [hnilo, hnilc]
  · intro data feature left right hcol hl0 hl1 hr0 hr1 hnil
    have hxnil : (data.colVals feature).map FV.fin = [] := by
      unfold DF.colVals
      rw [hnil]
      rfl
    have hbnds : quantileBounds data feature left right = (.nan, .nan) := by
      unfold quantileBounds
      rw [hxnil]
      rfl
    refine ⟨?_, hbnds⟩
    rw [quantile_char data feature left right hcol ⟨hl0, hl1⟩ ⟨hr0, hr1⟩,
      hnil]
    rfl

/-- C10 witness: a single-row column for the z-score method. -/
theorem nan_bounds_empty_outputs_witness :
    df9.hasCol "a" = true ∧ df9.rows.length ≤ 1 ∧
    (find_outliers_z_score id sqZ df9 "a" 3 3 false =
      .ok (⟨df9.cols, []⟩, ⟨df9.cols, []⟩) ∧
     stdFV sqZ (transformX id df9 "a" false) = .nan ∧
     zBounds id sqZ df9 "a" 3 3 false = (.nan, .nan)) :=
  ⟨by with_unfolding_all decide, by with_unfolding_all decide,
   nan_bounds_empty_outputs.2.1 id sqZ df9 "a" 3 3 false
     (by with_unfolding_all decide) (by with_unfolding_all decide)⟩

/-- C5: when the (possibly transformed) feature column has zero sample
variance (so `sigma = sqrt 0 = 0`) and `left, right > 0`, the z-score
bounds collapse to the mean `mu`: any row whose transformed value
differs from `mu` lands in `outliers`, and every row whose transformed
value equals `mu` lands in neither returned set. -/
theorem zscore_zero_variance
    (lg sq : ℚ → ℚ) (data : DF) (feature : String) (left right : ℚ)
    (log_scale : Bool) (m : ℚ) (out cl : DF)
    (hdom : logDomainOK data feature log_scale)
    (hleft : 0 < left) (hright : 0 < right)
    (hsq0 : sq 0 = 0)
    (hvar : varFV (transformX lg data feature log_scale) = .fin 0)
    (hmean : meanFV (transformX lg data feature log_scale) = .fin m)
    (hok : find_outliers_z_score lg sq data feature left right log_scale
      = .ok (out, cl)) :
    zBounds lg sq data feature left right log_scale = (.fin m, .fin m) ∧
    ∀ r ∈ data.rows,
      (¬ rowT lg data feature log_scale r = .fin m → r ∈ out.rows) ∧
      (rowT lg data feature log_scale r = .fin m →
        ¬ r ∈ out.rows ∧ ¬ r ∈ cl.rows) := by
  have hstd : stdFV sq (transformX lg data feature log_scale) = .fin 0 := by
    have h1 : stdFV sq (transformX lg data feature log_scale)
        = .fin (sq 0) := by
      unfold stdFV
      rw [hvar]
    rw [h1, hsq0]
  have hbnds : zBounds lg sq data feature left right log_scale
      = (.fin m, .fin m) := by
    unfold zBounds
    rw [hstd, hmean, fmul_fin_fin, fmul_fin_fin, fsub_fin_fin, fadd_fin_fin,
      mul_zero, sub_zero, mul_zero, add_zero]
  have hcol : data.hasCol feature = true := by
    by_contra hcol
    unfold find_outliers_z_score at hok
    rw [if_neg hcol] at hok
    cases hok
  rw [z_char lg sq data feature left right log_scale hcol] at hok
  injection hok with h
  injection h with h1 h2
  subst h1
  subst h2
  refine ⟨hbnds, ?_⟩
  intro r hr
  have hxfin : ∃ a, rowT lg data feature log_scale r = .fin a := by
    apply transformX_allfin lg hdom
    rw [transformX_eq]
    exact List.mem_map_of_mem _ hr
  obtain ⟨a, hxa⟩ := hxfin
  constructor
  · intro hne
    apply List.mem_filter.2
    refine ⟨hr, ?_⟩
    rw [hxa] at hne ⊢
    rw [hbnds]
    have ham : ¬ a = m := fun hc => hne (by rw [hc])
    rcases lt_or_gt_of_ne ham with hlt | hgt
    · apply Bool.or_eq_true_iff.2
      left
      rw [show ((FV.fin m, FV.fin m) : FV × FV).1 = .fin m from rfl,
        fvltB_fin_fin]
      exact hlt
    · apply Bool.or_eq_true_iff.2
      right
      rw [show ((FV.fin m, FV.fin m) : FV × FV).2 = .fin m from rfl,
        fvltB_fin_fin]
      exact hgt
  · intro heq
    constructor
    · intro hin
      have hmt := (List.mem_filter.1 hin).2
      rw [heq, hbnds,
        show ((FV.fin m, FV.fin m) : FV × FV).1 = .fin m from rfl,
        show ((FV.fin m, FV.fin m) : FV × FV).2 = .fin m from rfl,
        fvltB_irrefl] at hmt
      exact Bool.false_ne_true (by simpa using hmt)
    · intro hin
      have hmt := (List.mem_filter.1 hin).2
      rw [heq, hbnds,
        show ((FV.fin m, FV.fin m) : FV × FV).1 = .fin m from rfl,
        show ((FV.fin m, FV.fin m) : FV × FV).2 = .fin m from rfl,
        fvltB_irrefl] at hmt
      exact Bool.false_ne_true (by simpa using hmt)

/-- C5 witness: the constant two-row column `[5, 5]`. -/
theorem zscore_zero_variance_witness :
    logDomainOK df55 "a" false ∧ (0 : ℚ) < 3 ∧ sqZ 0 = 0 ∧
    varFV (transformX id df55 "a" false) = .fin 0 ∧
    meanFV (transformX id df55 "a" false) = .fin 5 ∧
    find_outliers_z_score id sqZ df55 "a" 3 3 false =
      .ok (⟨["a"], []⟩, ⟨["a"], []⟩) ∧
    zBounds id sqZ df55 "a" 3 3 false = (.fin 5, .fin 5) :=
  ⟨fun h => absurd h (by decide), by norm_num, rfl,
   by with_unfolding_all decide, by with_unfolding_all decide,
   by with_unfolding_all decide,
   (zscore_zero_variance id sqZ df55 "a" 3 3 false 5
     (⟨["a"], []⟩ : DF) (⟨["a"], []⟩ : DF)
     (fun h => absurd h (by decide)) (by norm_num) (by norm_num) rfl
     (by with_unfolding_all decide) (by with_unfolding_all decide)
     (by with_unfolding_all decide)).1⟩

/-- C6: for a fixed dataset and feature (with the log transform applied
only on its valid domain), the outlier count is antitone in the spread
parameters: increasing `left`/`right` in `find_outliers_iqr` or
`find_outliers_z_score`, or moving the quantile pair outward
(decreasing `left` / increasing `right`) in `find_outliers_quantile`,
never increases the number of outliers. -/
theorem outlier_count_antitone :
    (∀ (lg : ℚ → ℚ) (data : DF) (feature : String) (l l' r r' : ℚ)
        (ls : Bool),
      logDomainOK data feature ls →
      0 ≤ l → l ≤ l' → 0 ≤ r → r ≤ r' →
      outlierCount (find_outliers_iqr lg data feature l' r' ls) ≤
        outlierCount (find_outliers_iqr lg data feature l r ls)) ∧
    (∀ (lg sq : ℚ → ℚ) (data : DF) (feature : String) (l l' r r' : ℚ)
        (ls : Bool),
      logDomainOK data feature ls →
      (∀ u : ℚ, 0 ≤ u → 0 ≤ sq u) →
      0 ≤ l → l ≤ l' → 0 ≤ r → r ≤ r' →
      outlierCount (find_outliers_z_score lg sq data feature l' r' ls) ≤
        outlierCount (find_outliers_z_score lg sq data feature l r ls)) ∧
    (∀ (data : DF) (feature : String) (l l' r r' : ℚ),
      0 ≤ l' → l' ≤ l → l ≤ 1 → 0 ≤ r → r ≤ r' → r' ≤ 1 →
      outlierCount (find_outliers_quantile data feature l' r') ≤
        outlierCount (find_outliers_quantile data feature l r)) := by
  refine ⟨?_, ?_, ?_⟩
  · intro lg data feature l l' r r' ls hdom hl0 hll hr0 hrr
    by_cases hcol : data.hasCol feature = true
    · rw [iqr_char lg data feature l' r' ls hcol,
        iqr_char lg data feature l r ls hcol]
      simp only [outlierCount]
      by_cases hnil : data.rows = []
      · rw [hnil]
        simp
      · obtain ⟨q1, q3, h13, hbnd⟩ := iqrBounds_fin lg hdom hnil
        rw [hbnd l' r', hbnd l r]
        apply filter_length_mono
        intro a hmask
        have hd0 : (0 : ℚ) ≤ q3 - q1 := by linarith
        have hlmul := mul_le_mul_of_nonneg_left hll hd0
        have hrmul := mul_le_mul_of_nonneg_left hrr hd0
        exact outMask_mono (by linarith) (by linarith) _ hmask
    · unfold find_outliers_iqr
      rw [if_neg hcol, if_neg hcol]
  · intro lg sq data feature l l' r r' ls hdom hsq hl0 hll hr0 hrr
    by_cases hcol : data.hasCol feature = true
    · rw [z_char lg sq data feature l' r' ls hcol,
        z_char lg sq data feature l r ls hcol]
      simp only [outlierCount]
      by_cases hshort : data.rows.length < 2
      · have hvar : varFV (transformX lg data feature ls) = .nan := by
          apply varFV_nan_of_short
          calc (dropna (transformX lg data feature ls)).length
            ≤ (transformX lg data feature ls).length :=
              List.length_filter_le _ _
          _ = data.rows.length := transformX_length lg data feature ls
          _ < 2 := hshort
        rw [zBounds_nan lg sq l' r' hvar, zBounds_nan lg sq l r hvar]
      · obtain ⟨m, s', hs'0, hbnd⟩ :=
          zBounds_fin lg sq hdom (by omega) hsq
        rw [hbnd l' r', hbnd l r]
        apply filter_length_mono
        intro a hmask
        have hlmul := mul_le_mul_of_nonneg_right hll hs'0
        have hrmul := mul_le_mul_of_nonneg_right hrr hs'0
        exact outMask_mono (by linarith) (by linarith) _ hmask
    · unfold find_outliers_z_score
      rw [if_neg hcol, if_neg hcol]
  · intro data feature l l' r r' hl'0 hl'l hl1 hr0 hrr' hr'1
    by_cases hcol : data.hasCol feature = true
    · rw [quantile_char data feature l' r' hcol
          ⟨hl'0, le_trans hl'l hl1⟩ ⟨le_trans hr0 hrr', hr'1⟩,
        quantile_char data feature l r hcol
          ⟨le_trans hl'0 hl'l, hl1⟩ ⟨hr0, le_trans hrr' hr'1⟩]
      simp only [outlierCount]
      by_cases hnil : data.rows = []
      · rw [hnil]
        simp
      · have hfin := allfin_map_fin (data.colVals feature)
        have hne' : (data.colVals feature).map FV.fin ≠ [] := by
          unfold DF.colVals
          simpa using hnil
        obtain ⟨xw, xn, hQl', hQl, hxl⟩ :=
          quantileFV_fin_mono hfin hne' hl'0 hl'l hl1
        obtain ⟨yn, yw, hQr, hQr', hyr⟩ :=
          quantileFV_fin_mono hfin hne' hr0 hrr' hr'1
        have hqbW : quantileBounds data feature l' r'
            = (.fin xw, .fin yw) := by
          unfold quantileBounds
          rw [hQl', hQr']
        have hqbN : quantileBounds data feature l r
            = (.fin xn, .fin yn) := by
          unfold quantileBounds
          rw [hQl, hQr]
        rw [hqbW, hqbN]
        apply filter_length_mono
        intro a hmask
        exact outMask_mono hxl hyr _ hmask
    · unfold find_outliers_quantile
      rw [if_neg hcol, if_neg hcol]

/-- C6 witness at a concrete instance (IQR on Scenario A, widening the
multipliers from 1.5 to 2). -/
theorem outlier_count_antitone_witness :
    logDomainOK dfA "f" false ∧ (0 : ℚ) ≤ 3/2 ∧ (3 : ℚ)/2 ≤ 2 ∧
    outlierCount (find_outliers_iqr id dfA "f" 2 2 false) ≤
      outlierCount (find_outliers_iqr id dfA "f" (3/2) (3/2) false) :=
  ⟨fun h => absurd h (by decide), by norm_num, by norm_num,
   outlier_count_antitone.1 id dfA "f" (3/2) 2 (3/2) 2 false
     (fun h => absurd h (by decide)) (by norm_num) (by norm_num)
     (by norm_num) (by norm_num)⟩
